import Mathlib

/-!
Shallow embedding of `src/levx.cpp`: a resolution-aware pairwise
edit-distance program over a genome sequence.  Sequences are modelled as
`List Char`, sizes and distances as `Nat` (the C++ `int`/`size_t` values
never overflow at the sizes the program handles).
-/

/-- The `Resolution` enum of the source. -/
inductive Resolution
  | RES_10BP
  | RES_100BP
  | RES_1KB
deriving DecidableEq

/-- `decide_resolution` from the source: thresholds at 100000 and 1000000. -/
def decide_resolution (distance : Nat) : Resolution :=
  if distance ≤ 100000 then Resolution.RES_10BP
  else if distance ≤ 1000000 then Resolution.RES_100BP
  else Resolution.RES_1KB

/-- The window-length selection from `main` (line 106):
`(resolution == RES_10BP) ? 10 : (resolution == RES_100BP) ? 100 : 1000`. -/
def segment_size (r : Resolution) : Nat :=
  if r = Resolution.RES_10BP then 10
  else if r = Resolution.RES_100BP then 100
  else 1000

/-- Inner cells of one DP row of `levenshtein_distance_optimized`:
processes the remaining characters of `s1` together with the remaining
entries of the `previous` row, carrying `left = current[i-1]` and
`diag = previous[i-1]`.  Each produced cell is
`min (previous[i] + 1) (min (current[i-1] + 1) (previous[i-1] + cost))`. -/
def nextCells (c : Char) : List Char → List Nat → Nat → Nat → List Nat
  | a :: s1rest, p :: prest, left, diag =>
      let cost : Nat := if a = c then 0 else 1
      let cur := min (p + 1) (min (left + 1) (diag + cost))
      cur :: nextCells c s1rest prest cur p
  | _, _, _, _ => []

/-- One iteration of the outer loop of `levenshtein_distance_optimized`:
the new row for column `j` (whose character of `s2` is `c`), starting
with `current[0] = j`. -/
def dpRow (c : Char) (j : Nat) (s1 : List Char) : List Nat → List Nat
  | [] => [j]
  | p0 :: rest => j :: nextCells c s1 rest j p0

/-- The outer loop of `levenshtein_distance_optimized` over the columns
(characters of `s2`), threading the `previous` row. -/
def dpLoop (s1 : List Char) : List Char → Nat → List Nat → List Nat
  | [], _, previous => previous
  | c :: s2rest, j, previous => dpLoop s1 s2rest (j + 1) (dpRow c j s1 previous)

/-- The body of `levenshtein_distance_optimized` after the swap:
initial row `previous[i] = i`, loop over `s2`, answer `previous[len1]`. -/
def levenshtein_core (s1 s2 : List Char) : Nat :=
  (dpLoop s1 s2 1 (List.range (s1.length + 1))).getD s1.length 0

/-- `levenshtein_distance_optimized` from the source: swaps the operands
when `len1 > len2`, then runs the two-row DP. -/
def levenshtein_distance_optimized (s1 s2 : List Char) : Nat :=
  if s1.length > s2.length then levenshtein_core s2 s1
  else levenshtein_core s1 s2

/-- Reference Levenshtein distance: the classic recursive definition. -/
def lev : List Char → List Char → Nat
  | [], ys => ys.length
  | x :: xs, [] => (x :: xs).length
  | x :: xs, y :: ys =>
      min (lev xs (y :: ys) + 1)
        (min (lev (x :: xs) ys + 1) (lev xs ys + if x = y then 0 else 1))
termination_by xs ys => xs.length + ys.length

/-- Edit scripts in canonical left-to-right form: `Transforms a b n` holds
when `a` can be turned into `b` by `n` single-symbol insertions, deletions
and substitutions (matched symbols are kept for free). -/
inductive Transforms : List Char → List Char → Nat → Prop
  | nil : Transforms [] [] 0
  | keep (a : Char) {xs ys n} : Transforms xs ys n → Transforms (a :: xs) (a :: ys) n
  | subst (a b : Char) {xs ys n} : Transforms xs ys n → Transforms (a :: xs) (b :: ys) (n + 1)
  | del (a : Char) {xs ys n} : Transforms xs ys n → Transforms (a :: xs) ys (n + 1)
  | ins (b : Char) {xs ys n} : Transforms xs ys n → Transforms xs (b :: ys) (n + 1)

theorem lev_nil_left (ys : List Char) : lev [] ys = ys.length := by
  simp [lev]

theorem lev_nil_right (xs : List Char) : lev xs [] = xs.length := by
  cases xs <;> simp [lev]

theorem lev_cons_cons (x y : Char) (xs ys : List Char) :
    lev (x :: xs) (y :: ys) =
      min (lev xs (y :: ys) + 1)
        (min (lev (x :: xs) ys + 1) (lev xs ys + if x = y then 0 else 1)) := by
  simp [lev]

theorem lev_del_le (a : Char) (xs ys : List Char) :
    lev (a :: xs) ys ≤ lev xs ys + 1 := by
  cases ys with
  | nil => simp [lev_nil_right]
  | cons y ys =>
      rw [lev_cons_cons]
      exact min_le_left _ _

theorem lev_ins_le (b : Char) (xs ys : List Char) :
    lev xs (b :: ys) ≤ lev xs ys + 1 := by
  cases xs with
  | nil => simp [lev_nil_left]
  | cons x xs =>
      rw [lev_cons_cons]
      exact le_trans (min_le_right _ _) (min_le_left _ _)

theorem lev_sub_le (a b : Char) (xs ys : List Char) :
    lev (a :: xs) (b :: ys) ≤ lev xs ys + 1 := by
  rw [lev_cons_cons]
  refine le_trans (le_trans (min_le_right _ _) (min_le_right _ _)) ?_
  split <;> omega

theorem lev_keep_le (a : Char) (xs ys : List Char) :
    lev (a :: xs) (a :: ys) ≤ lev xs ys := by
  rw [lev_cons_cons]
  refine le_trans (le_trans (min_le_right _ _) (min_le_right _ _)) ?_
  simp

/-- Every edit script of cost `n` witnesses `lev a b ≤ n`. -/
theorem lev_le_of_transforms {a b : List Char} {n : Nat}
    (h : Transforms a b n) : lev a b ≤ n := by
  induction h with
  | nil => simp [lev]
  | keep c _ ih => exact le_trans (lev_keep_le c _ _) ih
  | subst c d _ ih => exact le_trans (lev_sub_le c d _ _) (by omega)
  | del c _ ih => exact le_trans (lev_del_le c _ _) (by omega)
  | ins d _ ih => exact le_trans (lev_ins_le d _ _) (by omega)

/-- Deleting every symbol of `xs` is an edit script from `xs` to `[]`. -/
theorem transforms_del_all (xs : List Char) : Transforms xs [] xs.length := by
  induction xs with
  | nil => exact Transforms.nil
  | cons x xs ih => exact Transforms.del x ih

/-- Inserting every symbol of `ys` is an edit script from `[]` to `ys`. -/
theorem transforms_ins_all (ys : List Char) : Transforms [] ys ys.length := by
  induction ys with
  | nil => exact Transforms.nil
  | cons y ys ih => exact Transforms.ins y ih

/-- `lev a b` is realised by an actual edit script. -/
theorem transforms_lev (a b : List Char) : Transforms a b (lev a b) := by
  induction a, b using lev.induct with
  | case1 ys => rw [lev_nil_left]; exact transforms_ins_all ys
  | case2 x xs => rw [lev_nil_right]; exact transforms_del_all (x :: xs)
  | case3 x xs y ys ih1 ih2 ih3 =>
      rw [lev_cons_cons]
      rcases min_cases (lev xs (y :: ys) + 1)
          (min (lev (x :: xs) ys + 1) (lev xs ys + if x = y then 0 else 1)) with
        ⟨h, _⟩ | ⟨h, _⟩
      · rw [h]; exact Transforms.del x ih1
      · rw [h]
        rcases min_cases (lev (x :: xs) ys + 1)
            (lev xs ys + if x = y then 0 else 1) with ⟨h2, _⟩ | ⟨h2, _⟩
        · rw [h2]; exact Transforms.ins y ih2
        · rw [h2]
          by_cases hxy : x = y
          · subst hxy; simp only [if_pos rfl, Nat.add_zero]
            exact Transforms.keep x ih3
          · simp only [if_neg hxy]
            exact Transforms.subst x y ih3

/-- `lev a b` is the least cost of any edit script from `a` to `b`. -/
theorem lev_isLeast (a b : List Char) :
    IsLeast {n | Transforms a b n} (lev a b) :=
  ⟨transforms_lev a b, fun _ hn => lev_le_of_transforms hn⟩

/-- Edit scripts reverse the roles of the two lists by mirroring
deletions and insertions. -/
theorem Transforms.symm {a b : List Char} {n : Nat}
    (h : Transforms a b n) : Transforms b a n := by
  induction h with
  | nil => exact Transforms.nil
  | keep c _ ih => exact Transforms.keep c ih
  | subst c d _ ih => exact Transforms.subst d c ih
  | del c _ ih => exact Transforms.ins c ih
  | ins d _ ih => exact Transforms.del d ih

theorem lev_symm (a b : List Char) : lev a b = lev b a := by
  apply le_antisymm
  · exact lev_le_of_transforms (transforms_lev b a).symm
  · exact lev_le_of_transforms (transforms_lev a b).symm

theorem Transforms.snoc_keep {xs ys : List Char} {n : Nat} (a : Char)
    (h : Transforms xs ys n) : Transforms (xs ++ [a]) (ys ++ [a]) n := by
  induction h with
  | nil => exact Transforms.keep a Transforms.nil
  | keep c _ ih => exact Transforms.keep c ih
  | subst c d _ ih => exact Transforms.subst c d ih
  | del c _ ih => exact Transforms.del c ih
  | ins d _ ih => exact Transforms.ins d ih

theorem Transforms.snoc_subst {xs ys : List Char} {n : Nat} (a b : Char)
    (h : Transforms xs ys n) : Transforms (xs ++ [a]) (ys ++ [b]) (n + 1) := by
  induction h with
  | nil => exact Transforms.subst a b Transforms.nil
  | keep c _ ih => exact Transforms.keep c ih
  | subst c d _ ih => exact Transforms.subst c d ih
  | del c _ ih => exact Transforms.del c ih
  | ins d _ ih => exact Transforms.ins d ih

theorem Transforms.snoc_del {xs ys : List Char} {n : Nat} (a : Char)
    (h : Transforms xs ys n) : Transforms (xs ++ [a]) ys (n + 1) := by
  induction h with
  | nil => exact Transforms.del a Transforms.nil
  | keep c _ ih => exact Transforms.keep c ih
  | subst c d _ ih => exact Transforms.subst c d ih
  | del c _ ih => exact Transforms.del c ih
  | ins d _ ih => exact Transforms.ins d ih

theorem Transforms.snoc_ins {xs ys : List Char} {n : Nat} (b : Char)
    (h : Transforms xs ys n) : Transforms xs (ys ++ [b]) (n + 1) := by
  induction h with
  | nil => exact Transforms.ins b Transforms.nil
  | keep c _ ih => exact Transforms.keep c ih
  | subst c d _ ih => exact Transforms.subst c d ih
  | del c _ ih => exact Transforms.del c ih
  | ins d _ ih => exact Transforms.ins d ih

/-- Edit scripts are invariant under reversing both lists. -/
theorem Transforms.reverse {xs ys : List Char} {n : Nat}
    (h : Transforms xs ys n) : Transforms xs.reverse ys.reverse n := by
  induction h with
  | nil => exact Transforms.nil
  | keep c _ ih => simpa using ih.snoc_keep c
  | subst c d _ ih => simpa using ih.snoc_subst c d
  | del c _ ih => simpa using ih.snoc_del c
  | ins d _ ih => simpa using ih.snoc_ins d

theorem lev_reverse (a b : List Char) : lev a.reverse b.reverse = lev a b := by
  apply le_antisymm
  · exact lev_le_of_transforms (transforms_lev a b).reverse
  · have := lev_le_of_transforms (transforms_lev a.reverse b.reverse).reverse
    simpa using this

/-- The last-character recurrence for `lev`, obtained from the
head recurrence via reversal. -/
theorem lev_snoc_snoc (xs ys : List Char) (x y : Char) :
    lev (xs ++ [x]) (ys ++ [y]) =
      min (lev xs (ys ++ [y]) + 1)
        (min (lev (xs ++ [x]) ys + 1) (lev xs ys + if x = y then 0 else 1)) := by
  have h1 : lev (xs ++ [x]) (ys ++ [y]) = lev (x :: xs.reverse) (y :: ys.reverse) := by
    rw [← lev_reverse]; simp
  have h2 : lev xs.reverse (y :: ys.reverse) = lev xs (ys ++ [y]) := by
    rw [← lev_reverse xs (ys ++ [y])]; simp
  have h3 : lev (x :: xs.reverse) ys.reverse = lev (xs ++ [x]) ys := by
    rw [← lev_reverse (xs ++ [x]) ys]; simp
  have h4 : lev xs.reverse ys.reverse = lev xs ys := lev_reverse xs ys
  rw [h1, lev_cons_cons, h2, h3, h4]

theorem nextCells_cons (c a : Char) (s1rest : List Char) (p : Nat) (prest : List Nat)
    (left diag : Nat) :
    nextCells c (a :: s1rest) (p :: prest) left diag =
      min (p + 1) (min (left + 1) (diag + if a = c then 0 else 1)) ::
        nextCells c s1rest prest
          (min (p + 1) (min (left + 1) (diag + if a = c then 0 else 1))) p := by
  simp [nextCells]

/-- Invariant of the inner loop of the DP: if the tail of the `previous`
row holds `lev` of the prefixes of `s1` against `t`, and `left`/`diag`
hold the current and previous values at the preceding index, then the
produced cells hold `lev` of the prefixes against `t ++ [c]`. -/
theorem nextCells_spec (c : Char) (t : List Char) :
    ∀ (rest u : List Char),
      nextCells c rest
        ((List.range' (u.length + 1) rest.length).map
          (fun i => lev ((u ++ rest).take i) t))
        (lev u (t ++ [c])) (lev u t)
      = (List.range' (u.length + 1) rest.length).map
          (fun i => lev ((u ++ rest).take i) (t ++ [c])) := by
  intro rest
  induction rest with
  | nil => intro u; simp [nextCells]
  | cons a rest ih =>
      intro u
      have htake : (u ++ a :: rest).take (u.length + 1) = u ++ [a] := by
        rw [List.take_append_eq_append_take]
        simp
      have hcur : min (lev (u ++ [a]) t + 1)
          (min (lev u (t ++ [c]) + 1) (lev u t + if a = c then 0 else 1))
          = lev (u ++ [a]) (t ++ [c]) := by
        rw [lev_snoc_snoc, min_left_comm]
      rw [List.length_cons, List.range'_succ, List.map_cons, List.map_cons, htake,
        nextCells_cons, hcur]
      have ihx := ih (u ++ [a])
      simp only [List.append_assoc, List.cons_append, List.nil_append,
        List.length_append, List.length_cons, List.length_nil] at ihx
      exact congrArg₂ List.cons rfl ihx

theorem dpRow_cons (c : Char) (j : Nat) (s1 : List Char) (p0 : Nat) (rest : List Nat) :
    dpRow c j s1 (p0 :: rest) = j :: nextCells c s1 rest j p0 := by
  simp [dpRow]

/-- Invariant of one outer iteration: a full `previous` row of prefix
distances against `t` becomes the row of prefix distances against
`t ++ [c]`, where the column counter is `t.length + 1`. -/
theorem dpRow_spec (c : Char) (t s1 : List Char) :
    dpRow c (t.length + 1) s1
      ((List.range (s1.length + 1)).map (fun i => lev (s1.take i) t))
    = (List.range (s1.length + 1)).map (fun i => lev (s1.take i) (t ++ [c])) := by
  rw [List.range_eq_range', List.range'_succ, List.map_cons, List.map_cons,
    dpRow_cons]
  have hx := nextCells_spec c t s1 []
  simp only [List.nil_append, List.length_nil, Nat.zero_add, lev_nil_left,
    List.length_append, List.length_cons] at hx
  simp only [List.take_zero, lev_nil_left, List.length_append, List.length_cons,
    List.length_nil, Nat.zero_add]
  exact congrArg₂ List.cons rfl hx

/-- Invariant of the outer loop: starting from the row of prefix
distances against `t` with column counter `t.length + 1`, consuming
`s2rest` yields the row of prefix distances against `t ++ s2rest`. -/
theorem dpLoop_spec (s1 : List Char) :
    ∀ (s2rest t : List Char),
      dpLoop s1 s2rest (t.length + 1)
        ((List.range (s1.length + 1)).map (fun i => lev (s1.take i) t))
      = (List.range (s1.length + 1)).map (fun i => lev (s1.take i) (t ++ s2rest)) := by
  intro s2rest
  induction s2rest with
  | nil => intro t; simp [dpLoop]
  | cons c s2 ih =>
      intro t
      simp only [dpLoop]
      rw [dpRow_spec]
      have ihx := ih (t ++ [c])
      simp only [List.length_append, List.length_cons, List.length_nil,
        List.append_assoc, List.cons_append, List.nil_append] at ihx
      simpa using ihx

/-- The two-row DP body computes the reference Levenshtein distance
(for any operand lengths; the swap in the wrapper is only an
optimization). -/
theorem levenshtein_core_eq (s1 s2 : List Char) :
    levenshtein_core s1 s2 = lev s1 s2 := by
  have hinit : (List.range (s1.length + 1)).map (fun i => lev (s1.take i) [])
      = List.range (s1.length + 1) := by
    have h : ∀ i ∈ List.range (s1.length + 1), lev (s1.take i) [] = id i := by
      intro i hi
      rw [lev_nil_right, List.length_take]
      simp only [List.mem_range] at hi
      simp only [id]
      omega
    rw [List.map_congr_left h, List.map_id]
  unfold levenshtein_core
  rw [← hinit]
  have hloop := dpLoop_spec s1 s2 []
  simp only [List.length_nil, Nat.zero_add, List.nil_append] at hloop
  rw [hloop]
  rw [List.getD_eq_getElem?_getD, List.getElem?_map,
    List.getElem?_range (Nat.lt_succ_self _)]
  simp [List.take_length]

/-- The full engine, swap included, computes the reference distance. -/
theorem levenshtein_distance_optimized_eq_lev (s1 s2 : List Char) :
    levenshtein_distance_optimized s1 s2 = lev s1 s2 := by
  unfold levenshtein_distance_optimized
  split
  · rw [levenshtein_core_eq, lev_symm]
  · rw [levenshtein_core_eq]

theorem lt_div_add_one_mul (a : Nat) {b : Nat} (hb : 0 < b) :
    a < (a / b + 1) * b := by
  have h1 := Nat.div_add_mod' a b
  have h2 := Nat.mod_lt a hb
  rw [Nat.succ_mul]
  omega

/-- Window length used by `main` for the pair `(i, j)`:
`segment_size (decide_resolution (j - i))`. -/
def pairWindowLen (i j : Nat) : Nat := segment_size (decide_resolution (j - i))

/-- One iteration of the inner pair loop of `main`: skip when either
window would overrun the sequence, otherwise produce the
`(i, j, distance)` triple of the two windows (`substr` is modelled as
`drop` followed by `take`). -/
def emitTriple (data : List Char) (i j : Nat) : Option (Nat × Nat × Nat) :=
  if i + pairWindowLen i j > data.length ∨ j + pairWindowLen i j > data.length then
    none
  else
    some (i, j, levenshtein_distance_optimized
      ((data.drop i).take (pairWindowLen i j))
      ((data.drop j).take (pairWindowLen i j)))

/-- Chunk start indices of `main`:
`for (start = 0; start < N; start += chunk_size)`. -/
def chunkStarts (chunkSize N : Nat) : List Nat :=
  (List.range ((N + chunkSize - 1) / chunkSize)).map (fun k => k * chunkSize)

/-- All pairs `(i, j)` enumerated by `main`, chunk by chunk: within each
chunk, `i` ranges over `[start, min (start + chunkSize) N)` and `j` over
`[i, N)`. -/
def chunkPairs (chunkSize N : Nat) : List (Nat × Nat) :=
  (chunkStarts chunkSize N).flatMap (fun start =>
    (List.range' start (min (start + chunkSize) N - start)).flatMap (fun i =>
      (List.range' i (N - i)).map (fun j => (i, j))))

/-- The list of triples the program emits for a given chunk size. -/
def runProgram (chunkSize : Nat) (data : List Char) : List (Nat × Nat × Nat) :=
  (chunkPairs chunkSize data.length).filterMap (fun p => emitTriple data p.1 p.2)

/-- The program as shipped: `chunk_size = 10000`. -/
def mainTriples (data : List Char) : List (Nat × Nat × Nat) :=
  runProgram 10000 data

theorem segment_size_decide_resolution_eq (d : Nat) :
    segment_size (decide_resolution d) =
      if d ≤ 100000 then 10 else if d ≤ 1000000 then 100 else 1000 := by
  by_cases h1 : d ≤ 100000 <;> by_cases h2 : d ≤ 1000000 <;>
    simp [decide_resolution, segment_size, h1, h2]

theorem segment_size_ge_ten (r : Resolution) : 10 ≤ segment_size r := by
  cases r <;> decide

theorem pairWindowLen_ge_ten (i j : Nat) : 10 ≤ pairWindowLen i j :=
  segment_size_ge_ten _

theorem lt_ceilDiv_iff {cs N k : Nat} (hcs : 0 < cs) :
    k < (N + cs - 1) / cs ↔ k * cs < N := by
  constructor
  · intro h
    have h1 : (N + cs - 1) / cs * cs ≤ N + cs - 1 := Nat.div_mul_le_self _ _
    have h2 : (k + 1) * cs ≤ (N + cs - 1) / cs * cs :=
      Nat.mul_le_mul_right _ h
    have h3 := Nat.le_trans h2 h1
    rw [Nat.succ_mul] at h3
    omega
  · intro h
    by_contra hk
    push_neg at hk
    have h3 : (N + cs - 1) / cs * cs ≤ k * cs := Nat.mul_le_mul_right _ hk
    have h4 : N + cs - 1 < ((N + cs - 1) / cs + 1) * cs :=
      lt_div_add_one_mul _ hcs
    rw [Nat.succ_mul] at h4
    omega

theorem mem_chunkStarts {cs N start : Nat} (hcs : 0 < cs) :
    start ∈ chunkStarts cs N ↔ ∃ k, k * cs < N ∧ start = k * cs := by
  unfold chunkStarts
  simp only [List.mem_map, List.mem_range]
  constructor
  · rintro ⟨k, hk, rfl⟩
    exact ⟨k, (lt_ceilDiv_iff hcs).mp hk, rfl⟩
  · rintro ⟨k, hk, rfl⟩
    exact ⟨k, (lt_ceilDiv_iff hcs).mpr hk, rfl⟩

/-- The chunked enumeration visits exactly the pairs `(i, j)` with
`i ≤ j < N`, for any positive chunk size. -/
theorem mem_chunkPairs {cs N : Nat} (hcs : 0 < cs) (i j : Nat) :
    (i, j) ∈ chunkPairs cs N ↔ i ≤ j ∧ j < N := by
  unfold chunkPairs
  simp only [List.mem_flatMap, List.mem_map, List.mem_range'_1, Prod.mk.injEq]
  constructor
  · rintro ⟨start, hstart, i', ⟨hi1, hi2⟩, j', ⟨hj1, hj2⟩, rfl, rfl⟩
    rw [mem_chunkStarts hcs] at hstart
    obtain ⟨k, hkN, rfl⟩ := hstart
    omega
  · rintro ⟨hij, hjN⟩
    refine ⟨i / cs * cs, ?_, i, ⟨Nat.div_mul_le_self _ _, ?_⟩, j, ⟨hij, ?_⟩, rfl, rfl⟩
    · rw [mem_chunkStarts hcs]
      exact ⟨i / cs, by have := Nat.div_mul_le_self i cs; omega, rfl⟩
    · have h1 := lt_div_add_one_mul i hcs
      rw [Nat.succ_mul] at h1
      have h2 := Nat.div_mul_le_self i cs
      omega
    · omega

theorem emitTriple_eq_some {data : List Char} {i j : Nat} {t : Nat × Nat × Nat} :
    emitTriple data i j = some t ↔
      i + pairWindowLen i j ≤ data.length ∧
      j + pairWindowLen i j ≤ data.length ∧
      t = (i, j, levenshtein_distance_optimized
        ((data.drop i).take (pairWindowLen i j))
        ((data.drop j).take (pairWindowLen i j))) := by
  unfold emitTriple
  split
  · next hcond =>
      constructor
      · intro h; exact absurd h (by simp)
      · rintro ⟨h1, h2, -⟩; omega
  · next hcond =>
      push_neg at hcond
      constructor
      · intro h
        exact ⟨hcond.1, hcond.2, (Option.some.injEq _ _ ▸ h).symm⟩
      · rintro ⟨-, -, rfl⟩; rfl

/-- Characterization of the emitted triples: `(i, j, d)` appears in the
output iff `i ≤ j`, both windows fit, and `d` is the engine's distance of
the two windows. -/
theorem mem_runProgram {cs : Nat} (hcs : 0 < cs) (data : List Char)
    (i j d : Nat) :
    (i, j, d) ∈ runProgram cs data ↔
      i ≤ j ∧
      i + pairWindowLen i j ≤ data.length ∧
      j + pairWindowLen i j ≤ data.length ∧
      d = levenshtein_distance_optimized
        ((data.drop i).take (pairWindowLen i j))
        ((data.drop j).take (pairWindowLen i j)) := by
  unfold runProgram
  rw [List.mem_filterMap]
  constructor
  · rintro ⟨⟨i', j'⟩, hmem, hemit⟩
    rw [emitTriple_eq_some] at hemit
    obtain ⟨h1, h2, heq⟩ := hemit
    obtain ⟨rfl, rfl, rfl⟩ := Prod.mk.injEq .. ▸ heq
    rw [mem_chunkPairs hcs] at hmem
    exact ⟨hmem.1, h1, h2, rfl⟩
  · rintro ⟨hij, h1, h2, rfl⟩
    refine ⟨(i, j), ?_, ?_⟩
    · rw [mem_chunkPairs hcs]
      have := pairWindowLen_ge_ten i j
      exact ⟨hij, by omega⟩
    · rw [emitTriple_eq_some]
      exact ⟨h1, h2, rfl⟩

/-- The read loop of `load_genome_from_fasta`:
`while (getline(file, line)) genome_sequence += line`. -/
def readLoop : List (List Char) → List Char → List Char
  | [], acc => acc
  | l :: ls, acc => readLoop ls (acc ++ l)

/-- `load_genome_from_fasta`, with the file system modelled as
`Option (List (List Char))`: `none` is an unreadable file (the program
prints an error and exits with failure), `some lines` are the lines
`getline` yields.  The first `getline` discards the first line without
any validation; the loop concatenates the remaining lines. -/
def load_genome_from_fasta : Option (List (List Char)) → Option (List Char)
  | none => none
  | some [] => some []
  | some (_ :: rest) => some (readLoop rest [])

/-- Modelled from the spec: a flat biological sequence file has a valid
header marker when its first line starts with the FASTA description
marker character. -/
def hasValidHeader : List (List Char) → Bool
  | [] => false
  | l :: _ =>
      match l with
      | c :: _ => c = '>'
      | [] => false

theorem readLoop_eq (ls : List (List Char)) :
    ∀ acc, readLoop ls acc = acc ++ ls.flatten := by
  induction ls with
  | nil => intro acc; simp [readLoop]
  | cons l ls ih =>
      intro acc
      rw [readLoop, ih, List.flatten_cons, List.append_assoc]

theorem lev_le_max (a : List Char) : ∀ b, lev a b ≤ max a.length b.length := by
  induction a with
  | nil => intro b; simp [lev_nil_left]
  | cons x xs ih =>
      intro b
      cases b with
      | nil => simp [lev_nil_right]
      | cons y ys =>
          have h := ih ys
          have hb := lev_sub_le x y xs ys
          simp only [List.length_cons]
          omega

theorem length_sub_le_lev (a b : List Char) :
    a.length - b.length ≤ lev a b ∧ b.length - a.length ≤ lev a b := by
  induction a, b using lev.induct with
  | case1 ys => simp [lev_nil_left]
  | case2 x xs => simp [lev_nil_right]
  | case3 x xs y ys ih1 ih2 ih3 =>
      rw [lev_cons_cons]
      simp only [List.length_cons] at ih1 ih2 ih3 ⊢
      rcases ih1 with ⟨a1, a2⟩
      rcases ih2 with ⟨b1, b2⟩
      rcases ih3 with ⟨c1, c2⟩
      rcases em (x = y) with hxy | hxy
      · rw [if_pos hxy]; omega
      · rw [if_neg hxy]; omega

theorem lev_self (s : List Char) : lev s s = 0 := by
  have h1 : Transforms s s 0 := by
    induction s with
    | nil => exact Transforms.nil
    | cons x xs ih => exact Transforms.keep x ih
  exact Nat.le_zero.mp (lev_le_of_transforms h1)

theorem chunkStarts_nodup {cs N : Nat} (hcs : 0 < cs) :
    (chunkStarts cs N).Nodup := by
  unfold chunkStarts
  refine List.Nodup.map ?_ (List.nodup_range _)
  intro k1 k2 h
  exact Nat.eq_of_mul_eq_mul_right hcs h

/-- The pair enumeration visits each pair at most once, for any positive
chunk size. -/
theorem chunkPairs_nodup (cs N : Nat) :
    (chunkPairs cs N).Nodup := by
  unfold chunkPairs chunkStarts
  rw [List.nodup_flatMap]
  constructor
  · intro start _
    rw [List.nodup_flatMap]
    constructor
    · intro i _
      refine List.Nodup.map ?_ (List.nodup_range' _ _)
      intro j1 j2 h
      simpa using congrArg Prod.snd h
    · refine (List.pairwise_lt_range' _ _).imp ?_
      intro i1 i2 hlt
      simp only [Function.onFun]
      intro p hp1 hp2
      simp only [List.mem_map] at hp1 hp2
      obtain ⟨j1, _, rfl⟩ := hp1
      obtain ⟨j2, _, h⟩ := hp2
      have hfst := congrArg Prod.fst h
      simp only at hfst
      omega
  · rw [List.pairwise_map]
    refine (List.pairwise_lt_range _).imp ?_
    intro k1 k2 hlt
    simp only [Function.onFun]
    intro p hp1 hp2
    simp only [List.mem_flatMap, List.mem_map, List.mem_range'_1] at hp1 hp2
    obtain ⟨i1, hi1, j1, hj1, rfl⟩ := hp1
    obtain ⟨i2, hi2, j2, hj2, heq⟩ := hp2
    have hfst := congrArg Prod.fst heq
    simp only at hfst
    have hcsle : (k1 + 1) * cs ≤ k2 * cs := Nat.mul_le_mul_right _ hlt
    rw [Nat.succ_mul] at hcsle
    omega

/-- The emitted triple list never repeats a triple. -/
theorem runProgram_nodup (cs : Nat) (data : List Char) :
    (runProgram cs data).Nodup := by
  unfold runProgram
  refine List.Nodup.filterMap ?_ (chunkPairs_nodup cs data.length)
  intro p1 p2 t ht1 ht2
  rw [Option.mem_def, emitTriple_eq_some] at ht1 ht2
  obtain ⟨-, -, h1⟩ := ht1
  obtain ⟨-, -, h2⟩ := ht2
  rw [h1] at h2
  have ha := congrArg Prod.fst h2
  have hb := congrArg (fun q : Nat × Nat × Nat => q.2.1) h2
  simp only at ha hb
  exact Prod.ext ha hb

/-- The end-to-end sample sequence of the spec: `"ACGTACGTAC"`. -/
def sampleData : List Char :=
  ['A', 'C', 'G', 'T', 'A', 'C', 'G', 'T', 'A', 'C']

/-- C1: for all strings `a` and `b`, the edit-distance engine returns the
minimum number of single-symbol insertions, deletions, or substitutions
transforming `a` into `b` (the least cost of any `Transforms` edit
script), i.e. it equals the reference Levenshtein distance `lev`. -/
theorem claim_C1 (a b : List Char) :
    levenshtein_distance_optimized a b = lev a b ∧
    IsLeast {n | Transforms a b n} (levenshtein_distance_optimized a b) := by
  have h := levenshtein_distance_optimized_eq_lev a b
  exact ⟨h, h ▸ lev_isLeast a b⟩

/-- C2: the resolution policy maps distances to window lengths by the
stated thresholds, takes the stated boundary values, and is monotone
non-decreasing. -/
theorem claim_C2 :
    (∀ d, segment_size (decide_resolution d) =
      if d ≤ 100000 then 10 else if d ≤ 1000000 then 100 else 1000) ∧
    segment_size (decide_resolution 100000) = 10 ∧
    segment_size (decide_resolution 100001) = 100 ∧
    segment_size (decide_resolution 1000000) = 100 ∧
    segment_size (decide_resolution 1000001) = 1000 ∧
    Monotone (fun d => segment_size (decide_resolution d)) := by
  refine ⟨segment_size_decide_resolution_eq, by decide, by decide, by decide,
    by decide, ?_⟩
  intro a b hab
  simp only
  rw [segment_size_decide_resolution_eq, segment_size_decide_resolution_eq]
  split_ifs <;> omega

/-- C3: a pair `i ≤ j` produces an emitted triple iff both windows fit
within the sequence; an overrunning pair is skipped with no triple and
no error. -/
theorem claim_C3 (data : List Char) (i j : Nat) (hij : i ≤ j) :
    (∃ d, (i, j, d) ∈ mainTriples data) ↔
      (i + pairWindowLen i j ≤ data.length ∧
       j + pairWindowLen i j ≤ data.length) := by
  unfold mainTriples
  constructor
  · rintro ⟨d, hd⟩
    rw [mem_runProgram (by norm_num) data i j d] at hd
    exact ⟨hd.2.1, hd.2.2.1⟩
  · rintro ⟨h1, h2⟩
    exact ⟨_, (mem_runProgram (by norm_num) data i j _).mpr ⟨hij, h1, h2, rfl⟩⟩

theorem claim_C3_witness :
    (0 : Nat) ≤ 0 ∧
    ((∃ d, ((0, 0, d) : Nat × Nat × Nat) ∈ mainTriples ['A']) ↔
      (0 + pairWindowLen 0 0 ≤ (['A'] : List Char).length ∧
       0 + pairWindowLen 0 0 ≤ (['A'] : List Char).length)) :=
  ⟨Nat.le_refl 0, claim_C3 ['A'] 0 0 (Nat.le_refl 0)⟩

/-- C4: the window length of a pair depends only on the index separation
`j - i`, never on `i` or `j` individually, and the one length is applied
to both compared windows: when the pair is emitted both windows have
exactly that length. -/
theorem claim_C4 :
    (∀ i j k l : Nat, j - i = l - k → pairWindowLen i j = pairWindowLen k l) ∧
    (∀ (data : List Char) (i j : Nat),
      i + pairWindowLen i j ≤ data.length →
      j + pairWindowLen i j ≤ data.length →
      ((data.drop i).take (pairWindowLen i j)).length = pairWindowLen i j ∧
      ((data.drop j).take (pairWindowLen i j)).length = pairWindowLen i j ∧
      emitTriple data i j = some (i, j, levenshtein_distance_optimized
        ((data.drop i).take (pairWindowLen i j))
        ((data.drop j).take (pairWindowLen i j)))) := by
  constructor
  · intro i j k l h
    unfold pairWindowLen
    rw [h]
  · intro data i j h1 h2
    refine ⟨?_, ?_, ?_⟩
    · rw [List.length_take, List.length_drop]; omega
    · rw [List.length_take, List.length_drop]; omega
    · rw [emitTriple_eq_some]
      exact ⟨h1, h2, rfl⟩

theorem claim_C4_witness :
    pairWindowLen 0 7 = pairWindowLen 2 9 ∧
    emitTriple (List.replicate 10 'A') 0 0 =
      some (0, 0, levenshtein_distance_optimized
        (((List.replicate 10 'A').drop 0).take (pairWindowLen 0 0))
        (((List.replicate 10 'A').drop 0).take (pairWindowLen 0 0))) :=
  ⟨claim_C4.1 0 7 2 9 rfl,
   (claim_C4.2 (List.replicate 10 'A') 0 0 (by decide) (by decide)).2.2⟩

/-- C5: the engine is symmetric in its operands, so the internal swap
for `len1 > len2` is harmless (the wrapper always agrees with the
unswapped DP body), and two windows compare equal in either order. -/
theorem claim_C5 :
    (∀ a b : List Char,
      levenshtein_distance_optimized a b = levenshtein_distance_optimized b a) ∧
    (∀ a b : List Char,
      levenshtein_distance_optimized a b = levenshtein_core a b) ∧
    (∀ (data : List Char) (L i j : Nat),
      levenshtein_distance_optimized ((data.drop i).take L) ((data.drop j).take L)
      = levenshtein_distance_optimized ((data.drop j).take L) ((data.drop i).take L)) := by
  have hsymm : ∀ a b : List Char,
      levenshtein_distance_optimized a b = levenshtein_distance_optimized b a := by
    intro a b
    rw [levenshtein_distance_optimized_eq_lev, levenshtein_distance_optimized_eq_lev,
      lev_symm]
  refine ⟨hsymm, ?_, ?_⟩
  · intro a b
    rw [levenshtein_distance_optimized_eq_lev, levenshtein_core_eq]
  · intro data L i j
    exact hsymm _ _

/-- C6: edge cases of the engine: an empty operand gives the other's
length, equal operands give 0; in particular a self-pair `(i, i)` whose
window fits is emitted with distance 0. -/
theorem claim_C6 :
    (∀ s : List Char, levenshtein_distance_optimized [] s = s.length) ∧
    (∀ s : List Char, levenshtein_distance_optimized s [] = s.length) ∧
    (∀ s : List Char, levenshtein_distance_optimized s s = 0) ∧
    (∀ (data : List Char) (i : Nat),
      i + pairWindowLen i i ≤ data.length →
      emitTriple data i i = some (i, i, 0)) := by
  refine ⟨?_, ?_, ?_, ?_⟩
  · intro s; rw [levenshtein_distance_optimized_eq_lev, lev_nil_left]
  · intro s; rw [levenshtein_distance_optimized_eq_lev, lev_nil_right]
  · intro s; rw [levenshtein_distance_optimized_eq_lev, lev_self]
  · intro data i h
    rw [emitTriple_eq_some]
    refine ⟨h, h, ?_⟩
    rw [levenshtein_distance_optimized_eq_lev, lev_self]

theorem claim_C6_witness :
    0 + pairWindowLen 0 0 ≤ (List.replicate 12 'G').length ∧
    emitTriple (List.replicate 12 'G') 0 0 = some (0, 0, 0) :=
  ⟨by decide, claim_C6.2.2.2 (List.replicate 12 'G') 0 (by decide)⟩

/-- C7: end-to-end on `"ACGTACGTAC"` (length 10): every pair separation
falls in the NEAR bucket with window length 10, only the pair
`i = j = 0` has both windows in bounds, and the program emits exactly
the one triple `(0, 0, 0)`. -/
theorem claim_C7 :
    mainTriples sampleData = [(0, 0, 0)] ∧
    (∀ i j : Nat, i ≤ j → j < 10 →
      decide_resolution (j - i) = Resolution.RES_10BP ∧ pairWindowLen i j = 10) ∧
    (∀ i j : Nat, (emitTriple sampleData i j).isSome ↔ (i = 0 ∧ j = 0)) := by
  refine ⟨by decide, ?_, ?_⟩
  · intro i j hij hj
    have hle : j - i ≤ 100000 := by omega
    have h : decide_resolution (j - i) = Resolution.RES_10BP := by
      unfold decide_resolution
      rw [if_pos hle]
    refine ⟨h, ?_⟩
    unfold pairWindowLen
    rw [h]
    decide
  · intro i j
    constructor
    · intro hsome
      by_contra hne
      have hL := pairWindowLen_ge_ten i j
      have hcond : i + pairWindowLen i j > sampleData.length ∨
          j + pairWindowLen i j > sampleData.length := by
        have hlen : sampleData.length = 10 := by decide
        rw [hlen]
        by_cases hi : i = 0
        · subst hi
          right
          have : j ≠ 0 := fun hj => hne ⟨rfl, hj⟩
          omega
        · left; omega
      unfold emitTriple at hsome
      rw [if_pos hcond] at hsome
      simp at hsome
    · rintro ⟨rfl, rfl⟩
      decide

theorem claim_C7_witness :
    decide_resolution (0 - 0) = Resolution.RES_10BP ∧ pairWindowLen 3 7 = 10 :=
  ⟨(claim_C7.2.1 0 0 (Nat.le_refl 0) (by decide)).1,
   (claim_C7.2.1 3 7 (by decide) (by decide)).2⟩

/-- C8: chunk-size invariance: for a fixed sequence, any two positive
chunk sizes yield the same multiset of emitted triples — the two output
lists are permutations of each other, so only the order can differ. -/
theorem claim_C8 (cs1 cs2 : Nat) (data : List Char)
    (h1 : 0 < cs1) (h2 : 0 < cs2) :
    (runProgram cs1 data).Perm (runProgram cs2 data) := by
  rw [List.perm_ext_iff_of_nodup (runProgram_nodup cs1 data)
    (runProgram_nodup cs2 data)]
  rintro ⟨i, j, d⟩
  rw [mem_runProgram h1, mem_runProgram h2]

theorem claim_C8_witness :
    0 < 1 ∧ 0 < 3 ∧
    (runProgram 1 (List.replicate 11 'T')).Perm (runProgram 3 (List.replicate 11 'T')) :=
  ⟨Nat.one_pos, by omega,
   claim_C8 1 3 (List.replicate 11 'T') Nat.one_pos (by omega)⟩

/-- Counterexample to C9 as stated: a readable file whose first line
carries no valid header marker is not rejected — the loader succeeds,
silently discarding that first line. -/
theorem claim_C9_counterexample :
    hasValidHeader [['A', 'C', 'G', 'T'], ['G', 'G', 'G', 'G']] = false ∧
    load_genome_from_fasta (some [['A', 'C', 'G', 'T'], ['G', 'G', 'G', 'G']])
      = some ['G', 'G', 'G', 'G'] := by
  constructor
  · decide
  · rfl

/-- C9 amended: the loader returns the concatenation of all lines after
the discarded first line and fails exactly when the file is unreadable;
it performs no header validation. -/
theorem claim_C9 :
    load_genome_from_fasta none = none ∧
    (∀ lines, load_genome_from_fasta (some lines)
      = some (lines.drop 1).flatten) := by
  constructor
  · rfl
  · intro lines
    cases lines with
    | nil => rfl
    | cons l rest =>
        show some (readLoop rest []) = _
        rw [readLoop_eq]
        simp

/-- C10: the engine's result is bounded between the length difference
and the longer length; in particular every emitted distance for two
equal-length windows of length `L = pairWindowLen i j` is at most `L`. -/
theorem claim_C10 :
    (∀ a b : List Char,
      a.length - b.length ≤ levenshtein_distance_optimized a b ∧
      b.length - a.length ≤ levenshtein_distance_optimized a b ∧
      levenshtein_distance_optimized a b ≤ max a.length b.length) ∧
    (∀ (cs : Nat) (data : List Char) (i j d : Nat), 0 < cs →
      (i, j, d) ∈ runProgram cs data → d ≤ pairWindowLen i j) := by
  constructor
  · intro a b
    rw [levenshtein_distance_optimized_eq_lev]
    have h1 := length_sub_le_lev a b
    have h2 := lev_le_max a b
    exact ⟨h1.1, h1.2, h2⟩
  · intro cs data i j d hcs hmem
    rw [mem_runProgram hcs] at hmem
    obtain ⟨hij, h1, h2, rfl⟩ := hmem
    have e1 : ((data.drop i).take (pairWindowLen i j)).length = pairWindowLen i j := by
      rw [List.length_take, List.length_drop]; omega
    have e2 : ((data.drop j).take (pairWindowLen i j)).length = pairWindowLen i j := by
      rw [List.length_take, List.length_drop]; omega
    rw [levenshtein_distance_optimized_eq_lev]
    have hb := lev_le_max ((data.drop i).take (pairWindowLen i j))
      ((data.drop j).take (pairWindowLen i j))
    rw [e1, e2, max_self] at hb
    exact hb

theorem claim_C10_witness :
    0 < 10000 ∧
    ((0, 0, 0) : Nat × Nat × Nat) ∈ runProgram 10000 (List.replicate 10 'C') ∧
    (0 : Nat) ≤ pairWindowLen 0 0 :=
  ⟨by omega, by decide,
   claim_C10.2 10000 (List.replicate 10 'C') 0 0 0 (by omega) (by decide)⟩
